import Mathlib

/-!
Verification of the domain-name-finder core (`src/app/api/generate-names/route.ts`).

The development shallow-embeds the two core components of the request handler:

* the candidate extractor (the `names` pipeline, route.ts lines 59-68), and
* the per-candidate availability check `isDomainAvailable` (lines 8-19), and
* the bounded availability scanner inside the `ReadableStream` `start`
  callback (lines 75-132), modelled as a small-step transition system in
  which lookup completions interleave adversarially with the scheduler's
  resumptions at its two `await` suspension points (`Promise.race` and
  `Promise.all`).

Strings are modelled by Lean `String`/`List Char`; JavaScript string lengths
agree with character counts on the ASCII-only strings the filters retain.
-/

namespace DomainFinder

/-! ### Character classes used by the extractor -/

/-- The character class of the validity regex `[a-zA-Z0-9.-]` (route.ts line 66). -/
def isValidChar (c : Char) : Bool :=
  ('a' ≤ c && c ≤ 'z') || ('A' ≤ c && c ≤ 'Z') || ('0' ≤ c && c ≤ '9') || c = '.' || c = '-'

/-- Characters matched by `[-\d.]` in the decoration-stripping regex (route.ts line 61). -/
def isDecorChar (c : Char) : Bool :=
  c = '-' || ('0' ≤ c && c ≤ '9') || c = '.'

/-- ASCII whitespace, modelling JavaScript `\s` / `trim` on the inputs at hand. -/
def isWsChar (c : Char) : Bool :=
  c = ' ' || c = '\t' || c = '\n' || c = '\r' || c = '\x0b' || c = '\x0c'

/-- Lowercase a character list, modelling `toLowerCase` on the relevant
(basic latin) characters via the core ASCII `Char.toLower`. -/
def lowerList (l : List Char) : List Char := l.map Char.toLower

/-! ### List-of-characters utilities shared by extractor and stream model -/

/-- `startsWithSeq pat l` holds when `pat` is an initial segment of `l`. -/
def startsWithSeq : List Char → List Char → Bool
  | [], _ => true
  | _ :: _, [] => false
  | p :: ps, c :: cs => p = c && startsWithSeq ps cs

/-- `containsSeq pat l` holds when `pat` occurs contiguously inside `l`
(JavaScript `String.prototype.includes`). -/
def containsSeq (pat : List Char) : List Char → Bool
  | [] => startsWithSeq pat []
  | c :: cs => startsWithSeq pat (c :: cs) || containsSeq pat cs

/-- `endsWithSeq pat l` holds when `pat` is a final segment of `l`
(JavaScript `String.prototype.endsWith`). -/
def endsWithSeq (pat l : List Char) : Bool :=
  startsWithSeq pat.reverse l.reverse

/-- Split a character list at newline characters, exactly as JavaScript
`split("\n")`: the result always has one more piece than there are
newlines, so `"a\n"` splits into `["a", ""]` and `""` into `[""]`. -/
def splitLines : List Char → List (List Char)
  | [] => [[]]
  | c :: cs =>
    if c = '\n' then [] :: splitLines cs
    else
      match splitLines cs with
      | [] => [[c]]
      | l :: ls => (c :: l) :: ls

/-! ### The candidate extractor (route.ts lines 59-68) -/

/-- `line.replace(/^[-\d.]+\s*/, "")`: when the line starts with at least one
character from `[-\d.]`, remove that maximal run and any whitespace directly
following it; otherwise leave the line unchanged. -/
def stripDecor (l : List Char) : List Char :=
  match l with
  | [] => []
  | c :: _ =>
    if isDecorChar c then (l.dropWhile (isDecorChar ·)).dropWhile (isWsChar ·)
    else l

/-- JavaScript `trim()`: drop whitespace from both ends. -/
def trimList (l : List Char) : List Char :=
  ((l.dropWhile (isWsChar ·)).reverse.dropWhile (isWsChar ·)).reverse

/-- The per-line cleanup `line.replace(/^[-\d.]+\s*/, "").trim()` (route.ts line 61). -/
def cleanLine (l : List Char) : List Char :=
  trimList (stripDecor l)

/-- Does the line end with `".com"` case-insensitively
(`line.toLowerCase().endsWith(".com")`, route.ts line 65)? -/
def endsWithDotCom (l : List Char) : Bool :=
  endsWithSeq ['.', 'c', 'o', 'm'] (lowerList l)

/-- The filter predicate of route.ts lines 62-68: the (already cleaned) line
is kept when it is non-empty (JS truthiness), ends with `".com"`
case-insensitively, consists entirely of `[a-zA-Z0-9.-]`, and has length at
most 30. -/
def keepLine (s : String) : Bool :=
  !s.data.isEmpty && endsWithDotCom s.data && s.data.all isValidChar
    && decide (s.data.length ≤ 30)

/-- The candidate extractor: `rawText.split("\n").map(clean).filter(keep)`
(route.ts lines 59-68). -/
def extractNames (rawText : String) : List String :=
  (((splitLines rawText.data).map cleanLine).map String.mk).filter keepLine

/-- Modelled from the spec (§4.1, step 3 / claim C6's wording): retain a
(cleaned) line only if all of the following hold — non-empty; length at most
30; matches the character class `[a-zA-Z0-9.-]+` in full; case-insensitively
ends with `".com"`; does not case-insensitively contain `"here are"` or
`"based on"`. -/
def specKeep (s : String) : Bool :=
  !s.data.isEmpty && decide (s.data.length ≤ 30) && s.data.all isValidChar
    && endsWithDotCom s.data
    && !containsSeq (String.data "here are") (lowerList s.data)
    && !containsSeq (String.data "based on") (lowerList s.data)

/-! ### Line-splitting round trip (used for the stream protocol) -/

/-- The full text of the streamed body: the concatenation of all enqueued
chunks. -/
def joinOut (out : List String) : List Char :=
  (out.map String.data).flatten

/-! ### The availability check `isDomainAvailable` (route.ts lines 8-19) -/

/-- Outcome of one `fetch` of the lookup provider, as observed by
`isDomainAvailable`:

* `fetchError` — the `fetch` call itself rejects (network/transport error);
* `parseError status` — the response arrived with the given HTTP status but
  `res.json()` rejects (body is not JSON);
* `parsed status domains` — the body parsed; `domains` is `some l` when the
  parsed object carries a `domains` array `l`, and `none` when the field is
  absent (e.g. an error object or a JSON primitive). -/
inductive FetchOutcome where
  | fetchError : FetchOutcome
  | parseError : Nat → FetchOutcome
  | parsed : Nat → Option (List String) → FetchOutcome
  deriving DecidableEq, Repr

/-- `isDomainAvailable` (route.ts lines 8-19): any exception from `fetch` or
`res.json()` is caught and yields `false`; otherwise the result is
`!(data.domains && data.domains.length > 0)`.  The HTTP status is never
inspected. -/
def isDomainAvailable : FetchOutcome → Bool
  | FetchOutcome.fetchError => false
  | FetchOutcome.parseError _ => false
  | FetchOutcome.parsed _ none => true
  | FetchOutcome.parsed _ (some l) => l.isEmpty

/-- Modelled from the spec (claim C3's wording): a response is "non-2xx or
malformed" when the transport fails, the body fails to parse, or the HTTP
status lies outside 200-299. -/
def non2xxOrMalformed : FetchOutcome → Bool
  | FetchOutcome.fetchError => true
  | FetchOutcome.parseError _ => true
  | FetchOutcome.parsed status _ => decide (status < 200 ∨ 300 ≤ status)

/-- The behaviour `isDomainAvailable` actually implements: `false` exactly on
exceptions and on a parsed body carrying a non-empty `domains` array; the
HTTP status is ignored. -/
def amendedAvailable : FetchOutcome → Bool
  | FetchOutcome.fetchError => false
  | FetchOutcome.parseError _ => false
  | FetchOutcome.parsed _ none => true
  | FetchOutcome.parsed _ (some l) => decide (l.length = 0)

/-! ### The bounded availability scanner (route.ts lines 70-132)

The `start` callback runs on the JavaScript event loop: the code between two
`await`s executes atomically, while the `fetch` inside each
`checkDomainTask` resolves at an arbitrary later time.  We model one scan as
a transition system.  A state records the scheduler's position at one of its
suspension points together with the shared mutable variables
(`currentIndex`, `tasks`, `foundCount`, the enqueued chunks, and whether the
controller was closed); completions of in-flight lookups are separate,
adversarially interleaved transitions.

Fidelity notes, each traceable to the source:

* `tasks.shift()` (line 114) removes the *first* element of the array,
  whether or not that task has finished — `Promise.race` (line 113) merely
  tells the scheduler that *some* task in the array settled.
* `Promise.all(tasks)` (line 122) waits only for tasks still in the array;
  tasks shifted out earlier keep running unsupervised.
* a completion handler (lines 89-94) runs atomically: it reads `foundCount`,
  and on an available result increments it and enqueues the line.  When the
  controller is already closed, `controller.enqueue` throws, so no chunk is
  appended (the increment has already happened by then).
-/

/-- `"⚠️ No available domains found this time.\n"` (route.ts line 79),
written when the candidate list is empty. -/
def sentinelEmpty : String := "⚠️ No available domains found this time.\n"

/-- `"⚠️ No available domains found this time. Please try again.\n"`
(route.ts line 126), written when a full scan confirmed nothing. -/
def sentinelNoResult : String := "⚠️ No available domains found this time. Please try again.\n"

/-- Static data of one scan: the candidate list, the availability verdict
`isDomainAvailable` will produce for the `i`-th lookup, and the two
constants `maxResults`/`concurrencyLimit` (route.ts lines 72-73). -/
structure ScanConfig where
  names : List String
  avail : Nat → Bool
  maxResults : Nat
  concurrencyLimit : Nat

/-- Build a `ScanConfig` from the per-candidate fetch outcomes: the verdict
of lookup `i` is `isDomainAvailable` applied to its outcome. -/
def cfgOf (names : List String) (outcomes : Nat → FetchOutcome)
    (maxResults concurrencyLimit : Nat) : ScanConfig :=
  ⟨names, fun i => isDomainAvailable (outcomes i), maxResults, concurrencyLimit⟩

/-- The scheduler's position: suspended at `await Promise.race(tasks)`
(line 113), suspended at `await Promise.all(tasks)` (line 122), or finished
(the controller has been closed). -/
inductive Phase where
  | atRace : Phase
  | atAll : Phase
  | finished : Phase
  deriving DecidableEq, Repr

/-- One scan state.  `currentIndex` counts the lookups started so far (tasks
are launched in input order), `tasks` is the contents of the `tasks` array
(indices of the promises it holds, oldest first), `settled` the set of
lookups whose promise has settled, `output` the chunks enqueued so far. -/
structure ScanState where
  currentIndex : Nat
  tasks : List Nat
  settled : Finset Nat
  foundCount : Nat
  output : List String
  closed : Bool
  phase : Phase
  deriving DecidableEq

/-- The chunk enqueued for candidate `i`: `domain + "\n"` (route.ts line 93). -/
def lineOf (cfg : ScanConfig) (i : Nat) : String :=
  cfg.names.getD i "" ++ "\n"

/-- Effect of the completion handler of lookup `i` (route.ts lines 89-94):
the promise settles; when the result is available and `foundCount` is still
below `maxResults`, the counter is incremented and — provided the controller
is still open — the line is enqueued. -/
def completeAt (cfg : ScanConfig) (s : ScanState) (i : Nat) : ScanState :=
  let emit := cfg.avail i && decide (s.foundCount < cfg.maxResults)
  { s with
    settled := insert i s.settled
    foundCount := if emit then s.foundCount + 1 else s.foundCount
    output := if emit && !s.closed then s.output ++ [lineOf cfg i] else s.output }

/-- The synchronous block the scheduler runs when `Promise.race` resolves
(route.ts lines 114 then 98-113): `tasks.shift()`, re-test the outer loop
guard; inside the loop refill `tasks` up to `concurrencyLimit` (launching
`names[currentIndex]` and incrementing `currentIndex` each time) and suspend
at the next `Promise.race`; on guard failure fall through to
`await Promise.all(tasks)`. -/
def afterRace (cfg : ScanConfig) (s : ScanState) : ScanState :=
  let t := s.tasks.tail
  if s.currentIndex < cfg.names.length ∧ s.foundCount < cfg.maxResults then
    let k := min (cfg.concurrencyLimit - t.length) (cfg.names.length - s.currentIndex)
    { s with
      tasks := t ++ (List.range k).map (· + s.currentIndex)
      currentIndex := s.currentIndex + k
      phase := Phase.atRace }
  else
    { s with tasks := t, phase := Phase.atAll }

/-- The synchronous block after `Promise.all` resolves (route.ts lines
124-130): when `foundCount` is zero enqueue the no-result sentinel, then
close the controller. -/
def afterAll (_cfg : ScanConfig) (s : ScanState) : ScanState :=
  { s with
    output := if s.foundCount = 0 then s.output ++ [sentinelNoResult] else s.output
    closed := true
    phase := Phase.finished }

/-- The synchronous prefix of `start` (route.ts lines 77-113): with no
candidates, enqueue the empty-list sentinel and close immediately (lines
78-82); otherwise run the first iteration of the launch loop, filling
`tasks` with the first `min concurrencyLimit names.length` lookups, and
suspend at the first `Promise.race`.  (When `maxResults = 0` the loop guard
fails at once and the scheduler suspends at `Promise.all([])`.) -/
def initState (cfg : ScanConfig) : ScanState :=
  if cfg.names.length = 0 then
    ⟨0, [], ∅, 0, [sentinelEmpty], true, Phase.finished⟩
  else if cfg.maxResults = 0 then
    ⟨0, [], ∅, 0, [], false, Phase.atAll⟩
  else
    let k := min cfg.concurrencyLimit cfg.names.length
    ⟨k, List.range k, ∅, 0, [], false, Phase.atRace⟩

/-- The transitions of one scan.

* `complete`: an in-flight lookup (started, not yet settled) resolves and
  its handler runs; the adversary picks which one, in any order.
* `race`: the scheduler, suspended at `await Promise.race(tasks)`, resumes —
  enabled as soon as some promise in the `tasks` array has settled — and
  runs `afterRace`.
* `allDone`: the scheduler, suspended at `await Promise.all(tasks)`, resumes
  once every promise still in the array has settled, and runs `afterAll`. -/
inductive Step (cfg : ScanConfig) : ScanState → ScanState → Prop where
  | complete (s : ScanState) (i : Nat) :
      i < s.currentIndex → i ∉ s.settled → Step cfg s (completeAt cfg s i)
  | race (s : ScanState) :
      s.phase = Phase.atRace → (∃ i ∈ s.tasks, i ∈ s.settled) →
      Step cfg s (afterRace cfg s)
  | allDone (s : ScanState) :
      s.phase = Phase.atAll → (∀ i ∈ s.tasks, i ∈ s.settled) →
      Step cfg s (afterAll cfg s)

/-- A state of one scan: reachable from the initial state by interleaved
scheduler and completion transitions. -/
def Reachable (cfg : ScanConfig) (s : ScanState) : Prop :=
  Relation.ReflTransGen (Step cfg) (initState cfg) s

/-! ### The inductive invariant of the scan -/

/-- The inductive invariant maintained by every scan transition.  The
existential in `out_char` exhibits the indices whose lines were actually
enqueued, in stream order. -/
structure Inv (cfg : ScanConfig) (s : ScanState) : Prop where
  ci_le : s.currentIndex ≤ cfg.names.length
  tasks_lt : ∀ i ∈ s.tasks, i < s.currentIndex
  tasks_len : s.tasks.length ≤ cfg.concurrencyLimit
  settled_lt : ∀ i ∈ s.settled, i < s.currentIndex
  closed_iff : s.closed = true ↔ s.phase = Phase.finished
  found_le : s.foundCount ≤ cfg.maxResults
  race_tasks : 0 < cfg.concurrencyLimit → s.phase = Phase.atRace → s.tasks ≠ []
  fin_out : s.phase = Phase.finished → s.output ≠ []
  empty_fin : cfg.names = [] → s.phase = Phase.finished
  empty_out : cfg.names = [] → s.output = [sentinelEmpty]
  out_char : ∃ es : List Nat, es.Nodup ∧
      (∀ i ∈ es, i ∈ s.settled ∧ cfg.avail i = true) ∧
      es.length ≤ s.foundCount ∧
      (s.closed = false → s.foundCount = es.length) ∧
      (s.output = es.map (lineOf cfg)
        ∨ (cfg.names = [] ∧ es = [] ∧ s.output = [sentinelEmpty])
        ∨ (es = [] ∧ s.phase = Phase.finished ∧ s.output = [sentinelNoResult]))

/-! ### Claim C2 (confirmed): the stream is never aborted or malformed -/

/-- The stream-safety contract of one scan state: the controller is closed
exactly when the scan has finished; once closed, no step changes the output
and the controller never re-opens (so the close is unique and every
successful write precedes it); a finished scan has written something, and a
finished scan that confirmed nothing has written exactly a sentinel line;
and an unfinished scan always has an enabled transition (no deadlock). -/
def StreamSafe (cfg : ScanConfig) (s : ScanState) : Prop :=
  (s.closed = true ↔ s.phase = Phase.finished) ∧
  (∀ t, Step cfg s t → s.closed = true → t.output = s.output ∧ t.closed = true) ∧
  (s.phase = Phase.finished → s.output ≠ [] ∧
    (s.foundCount = 0 → s.output = [sentinelEmpty] ∨ s.output = [sentinelNoResult])) ∧
  (s.phase ≠ Phase.finished → ∃ t, Step cfg s t)

/-- Sample configuration for the C2 witness: one candidate, nothing
available, the code's constants `maxResults = 10`, `concurrencyLimit = 5`. -/
def cfgC2 : ScanConfig := ⟨["cloudmint.com"], fun _ => false, 10, 5⟩

/-! ### Claim C4 (corrected): the no-result sentinel is not unique -/

/-- Configuration with no candidates at all. -/
def cfgC4empty : ScanConfig := ⟨[], fun _ => false, 10, 5⟩

/-- Configuration with one candidate that the lookup reports unavailable. -/
def cfgC4one : ScanConfig := ⟨["cccc.com"], fun _ => false, 10, 5⟩

/-- A finished run of `cfgC4one`: the single lookup completes (unavailable),
the scheduler shifts and drains, and the scan closes with the long
sentinel. -/
def stC4one : ScanState :=
  afterAll cfgC4one (afterRace cfgC4one (completeAt cfgC4one (initState cfgC4one) 0))

/-- Candidate list for the C7 witness. -/
def namesC7 : List String := ["err.com", "next.com"]

/-- Lookup outcomes for the C7 witness: the first lookup's `fetch` rejects,
the second returns an empty-match 200 response. -/
def outcomesC7 : Nat → FetchOutcome := fun i =>
  if i = 0 then FetchOutcome.fetchError else FetchOutcome.parsed 200 (some [])

/-- The C7 witness configuration, with the code's constants. -/
def cfgC7 : ScanConfig := cfgOf namesC7 outcomesC7 10 5

/-- A finished run of `cfgC7`: the second lookup completes first and is
emitted, the scheduler shifts the (still pending) erroring task out and
drains, and the scan closes. -/
def stC7 : ScanState :=
  afterAll cfgC7 (afterRace cfgC7 (completeAt cfgC7 (initState cfgC7) 1))

/-! ### Claim C10 (confirmed): every stream line is a candidate or a sentinel -/

/-- One stream line is sound for raw text `raw`: it is one of the two
sentinels, or it is `name + "\n"` for a candidate `name` extracted from
`raw`, which therefore case-insensitively ends in `".com"`, is at most 30
characters long, matches `[a-zA-Z0-9.-]` in full, and contains no newline
(hence no whitespace). -/
def OutputLineOk (raw : String) (line : String) : Prop :=
  line = sentinelEmpty ∨ line = sentinelNoResult ∨
    ∃ name, name ∈ extractNames raw ∧ line = name ++ "\n" ∧
      endsWithDotCom name.data = true ∧ name.data.length ≤ 30 ∧
      name.data.all isValidChar = true ∧ '\n' ∉ name.data

/-- The whole stream is sound: every line is `OutputLineOk`, and splitting
the concatenated stream on newlines recovers exactly the emitted lines
(each stripped of its terminal newline), followed by the empty piece after
the final newline. -/
def StreamOutputOk (raw : String) (s : ScanState) : Prop :=
  (∀ line ∈ s.output, OutputLineOk raw line) ∧
  splitLines (joinOut s.output) = s.output.map (fun t => t.data.dropLast) ++ [[]]

/-- Raw text for the C10 witness. -/
def rawC10 : String := "alpha.com\nbeta.com"

/-- Lookup outcomes for the C10 witness: every candidate available. -/
def outcomesC10 : Nat → FetchOutcome := fun _ => FetchOutcome.parsed 200 (some [])

/-- The C10 witness configuration over the extracted candidates. -/
def cfgC10 : ScanConfig := cfgOf (extractNames rawC10) outcomesC10 10 5

/-- A finished run of `cfgC10` that emits `"beta.com\n"`. -/
def stC10 : ScanState :=
  afterAll cfgC10 (afterRace cfgC10 (completeAt cfgC10 (initState cfgC10) 1))

/-! ### Claim C1 (code bug): the concurrency bound can be exceeded

`tasks.shift()` (route.ts line 114) removes the *oldest* array entry, which
need not be the task `Promise.race` saw settle (the author's commented-out
lines 115-117 would have removed the settled one, and the comment on line
114 says "remove one finished task").  A settled task left in the array
makes every later `Promise.race` resolve immediately, so the scheduler keeps
shifting pending tasks out of the array and launching replacements: below,
seven lookups have been started while only one has completed — six
outstanding lookups against `concurrencyLimit = 5`. -/

/-- Seven candidates, nothing available, the code's constants. -/
def cfgC1 : ScanConfig :=
  ⟨["d0.com", "d1.com", "d2.com", "d3.com", "d4.com", "d5.com", "d6.com"],
    fun _ => false, 10, 5⟩

/-- After the fifth launched lookup (index 4) settles first: two race
resumptions each shift a pending task and launch a fresh one. -/
def stC1 : ScanState :=
  afterRace cfgC1 (afterRace cfgC1 (completeAt cfgC1 (initState cfgC1) 4))

/-! ### Claim C5 (code bug): confirmed-available results can be lost

With every candidate available and `maxResults = 2` over two candidates,
the claim demands exactly 2 emitted lines.  But if the second lookup
settles first, the race resumption shifts the *first* (still pending) task
out of the array; the loop guard then fails, `Promise.all` waits only for
the already-settled second task, and the controller closes while lookup 0
is still in flight.  When it later resolves available, its
`controller.enqueue` throws on the closed controller: only one line is ever
on the stream. -/

/-- Two candidates, everything available, `maxResults = 2`, the code's
`concurrencyLimit = 5`. -/
def cfgC5 : ScanConfig := ⟨["aaaa.com", "bbbb.com"], fun _ => true, 2, 5⟩

/-- The finished run in which lookup 1 settles before lookup 0. -/
def stC5 : ScanState :=
  afterAll cfgC5 (afterRace cfgC5 (completeAt cfgC5 (initState cfgC5) 1))

/-! ### Claim C8 (code bug): the emitted set can miss an available candidate

In the concrete scenario (4 candidates, only `beta.com` and `delta.com`
available, `concurrencyLimit = 2`, `maxResults = 2`), the claim demands the
emitted set be exactly `{beta.com, delta.com}` under every interleaving.
Interleaving: alfa settles (unavailable), the race shifts alfa and launches
gamma; gamma settles, the race shifts *beta* (still pending!) and launches
delta; the next race sees the settled gamma, shifts it, and the guard ends
the loop with only delta in the array; delta settles (emitted), the drain
completes and the controller closes.  Beta's lookup is still in flight; its
later available result is thrown away on the closed controller.  The stream
carries only `"delta.com\n"`. -/

/-- The four candidates of the spec's concrete scenario; availability is by
position: index 1 (`beta.com`) and index 3 (`delta.com`) are available. -/
def cfgC8 : ScanConfig :=
  ⟨["alfa.com", "beta.com", "gamma.com", "delta.com"],
    fun i => decide (i = 1 ∨ i = 3), 2, 2⟩

/-- The finished run described above. -/
def stC8 : ScanState :=
  afterAll cfgC8
    (completeAt cfgC8
      (afterRace cfgC8
        (afterRace cfgC8
          (completeAt cfgC8
            (afterRace cfgC8 (completeAt cfgC8 (initState cfgC8) 0)) 2))) 3)

/-! ### Theorems -/

/-! ### Extractor lemmas -/

theorem toLower_eq_space {c : Char} (h : Char.toLower c = ' ') : c = ' ' := by
  have h' : (if c.toNat ≥ 65 ∧ c.toNat ≤ 90 then Char.ofNat (c.toNat + 32) else c) = ' ' := h
  split at h'
  · exfalso
    have h32 : (Char.ofNat (c.toNat + 32)).toNat = c.toNat + 32 := by
      rw [Char.ofNat, dif_pos (Or.inl (by omega))]
      rfl
    have h2 := congrArg Char.toNat h'
    rw [h32] at h2
    have h3 : (' ' : Char).toNat = 32 := rfl
    omega
  · exact h'

theorem startsWithSeq_subset {pat l : List Char} (h : startsWithSeq pat l = true) :
    ∀ c ∈ pat, c ∈ l := by
  induction pat generalizing l with
  | nil =>
    intro c hc
    exact absurd hc (List.not_mem_nil c)
  | cons p ps ih =>
    cases l with
    | nil => exact absurd h (by simp [startsWithSeq])
    | cons x xs =>
      simp only [startsWithSeq, Bool.and_eq_true, decide_eq_true_eq] at h
      intro c hc
      rcases List.mem_cons.mp hc with rfl | hc
      · rw [h.1]
        exact List.mem_cons_self _ _
      · exact List.mem_cons_of_mem _ (ih h.2 c hc)

theorem containsSeq_subset {pat l : List Char} (h : containsSeq pat l = true) :
    ∀ c ∈ pat, c ∈ l := by
  induction l with
  | nil =>
    intro c hc
    cases pat with
    | nil => exact absurd hc (List.not_mem_nil c)
    | cons p ps => exact absurd h (by simp [containsSeq, startsWithSeq])
  | cons x xs ih =>
    simp only [containsSeq, Bool.or_eq_true] at h
    rcases h with h | h
    · exact startsWithSeq_subset h
    · exact fun c hc => List.mem_cons_of_mem _ (ih h c hc)

theorem no_space_of_all_valid {l : List Char} (hv : l.all isValidChar = true) :
    ' ' ∉ lowerList l := by
  intro hmem
  rcases List.mem_map.mp hmem with ⟨c, hc, hlc⟩
  have hcsp : c = ' ' := toLower_eq_space hlc
  subst hcsp
  have := List.all_eq_true.mp hv _ hc
  exact absurd this (by decide)

theorem keepLine_eq_specKeep (s : String) : keepLine s = specKeep s := by
  unfold keepLine specKeep
  cases hv : s.data.all isValidChar
  · simp [hv]
  · have h1 : containsSeq (String.data "here are") (lowerList s.data) = false := by
      cases hc : containsSeq (String.data "here are") (lowerList s.data)
      · rfl
      · exact absurd (containsSeq_subset hc ' ' (by decide)) (no_space_of_all_valid hv)
    have h2 : containsSeq (String.data "based on") (lowerList s.data) = false := by
      cases hc : containsSeq (String.data "based on") (lowerList s.data)
      · rfl
      · exact absurd (containsSeq_subset hc ' ' (by decide)) (no_space_of_all_valid hv)
    cases he : s.data.isEmpty <;> cases hd : endsWithDotCom s.data <;>
      cases hl : decide (s.data.length ≤ 30) <;> simp [hv, h1, h2, he, hd, hl]

theorem splitLines_ne_nil (l : List Char) : splitLines l ≠ [] := by
  cases l with
  | nil => simp [splitLines]
  | cons c cs =>
    unfold splitLines
    split
    · simp
    · cases h : splitLines cs with
      | nil => simp
      | cons a as => simp

theorem splitLines_append_newline {x : List Char} (hx : '\n' ∉ x) (r : List Char) :
    splitLines (x ++ '\n' :: r) = x :: splitLines r := by
  induction x with
  | nil => simp [splitLines]
  | cons c cs ih =>
    have hc : ¬(c = '\n') := fun h => hx (h ▸ List.mem_cons_self _ _)
    have hx' : '\n' ∉ cs := fun h => hx (List.mem_cons_of_mem _ h)
    simp only [List.cons_append, splitLines, if_neg hc, List.append_eq]
    rw [ih hx']

theorem data_append (a b : String) : (a ++ b).data = a.data ++ b.data := by
  cases a
  cases b
  rfl

theorem splitLines_joinOut (out : List String)
    (h : ∀ t ∈ out, ∃ b : List Char, t.data = b ++ ['\n'] ∧ '\n' ∉ b) :
    splitLines (joinOut out) = out.map (fun t => t.data.dropLast) ++ [[]] := by
  induction out with
  | nil => simp [joinOut, splitLines]
  | cons t ts ih =>
    obtain ⟨b, hb, hnb⟩ := h t (List.mem_cons_self _ _)
    have hrest := ih (fun u hu => h u (List.mem_cons_of_mem _ hu))
    have hjoin : joinOut (t :: ts) = t.data ++ joinOut ts := by
      simp [joinOut]
    rw [hjoin, hb, List.append_assoc, List.singleton_append,
      splitLines_append_newline hnb, hrest]
    simp [hb]

theorem inv_init (cfg : ScanConfig) : Inv cfg (initState cfg) := by
  unfold initState
  split
  · next h0 =>
    have hnil : cfg.names = [] := List.length_eq_zero.mp h0
    exact ⟨Nat.zero_le _, by simp, by simp, by simp, by simp, Nat.zero_le _,
      by intro _ h; simp at h, by simp [sentinelEmpty], fun _ => rfl, fun _ => rfl,
      ⟨[], List.nodup_nil, by simp, Nat.le_refl _, fun _ => rfl,
        Or.inr (Or.inl ⟨hnil, rfl, rfl⟩)⟩⟩
  · split
    · next h0 _ =>
      have hne : cfg.names ≠ [] := fun h => h0 (by simp [h])
      exact ⟨Nat.zero_le _, by simp, by simp, by simp, by simp, Nat.zero_le _,
        by intro _ h; simp at h, by intro h; simp at h,
        fun h => absurd h hne, fun h => absurd h hne,
        ⟨[], List.nodup_nil, by simp, Nat.le_refl _, fun _ => rfl, Or.inl rfl⟩⟩
    · next h0 hm =>
      have hne : cfg.names ≠ [] := fun h => h0 (by simp [h])
      have hlen : 0 < cfg.names.length := Nat.pos_of_ne_zero h0
      refine ⟨min_le_right _ _, ?_, by simp, by simp, by simp, Nat.zero_le _,
        ?_, by intro h; simp at h,
        fun h => absurd h hne, fun h => absurd h hne,
        ⟨[], List.nodup_nil, by simp, Nat.le_refl _, fun _ => rfl, Or.inl rfl⟩⟩
      · intro i hi
        simpa using List.mem_range.mp hi
      · intro hc _
        have : 0 < min cfg.concurrencyLimit cfg.names.length := lt_min hc hlen
        simp only [ne_eq, List.range_eq_nil]
        omega

theorem inv_complete {cfg : ScanConfig} {s : ScanState} (i : Nat)
    (hinv : Inv cfg s) (hi : i < s.currentIndex) (hns : i ∉ s.settled) :
    Inv cfg (completeAt cfg s i) := by
  obtain ⟨hci, htl, htn, hsl, hcl, hfl, hrt, hfo, hef, heo, es, hnd, hmem, hlen, hfnd, hout⟩ :=
    hinv
  have hsl' : ∀ j ∈ insert i s.settled, j < s.currentIndex := by
    intro j hj
    rcases Finset.mem_insert.mp hj with rfl | hj
    · exact hi
    · exact hsl j hj
  have hmem' : ∀ j ∈ es, j ∈ insert i s.settled ∧ cfg.avail j = true :=
    fun j hj => ⟨Finset.mem_insert_of_mem (hmem j hj).1, (hmem j hj).2⟩
  by_cases hemit : (cfg.avail i && decide (s.foundCount < cfg.maxResults)) = true
  · have hav : cfg.avail i = true := by
      have := hemit
      simp only [Bool.and_eq_true, decide_eq_true_eq] at this
      exact this.1
    have hflt : s.foundCount < cfg.maxResults := by
      have := hemit
      simp only [Bool.and_eq_true, decide_eq_true_eq] at this
      exact this.2
    by_cases hopen : s.closed = false
    · -- available, cap not reached, controller open: line is enqueued
      have hseq : completeAt cfg s i =
          { s with settled := insert i s.settled,
                   foundCount := s.foundCount + 1,
                   output := s.output ++ [lineOf cfg i] } := by
        simp [completeAt, hemit, hopen]
      have hnotfin : s.phase ≠ Phase.finished := fun h => by
        rw [hcl.mpr h] at hopen
        exact Bool.true_eq_false.mp hopen
      have hout1 : s.output = es.map (lineOf cfg) := by
        rcases hout with h | ⟨h2, _, _⟩ | ⟨_, h2, _⟩
        · exact h
        · exact absurd (hef h2) hnotfin
        · exact absurd h2 hnotfin
      have hies : i ∉ es := fun h => hns (hmem i h).1
      rw [hseq]
      refine ⟨hci, htl, htn, hsl', hcl, Nat.succ_le_of_lt hflt, hrt, ?_, hef, ?_,
        es ++ [i], ?_, ?_, ?_, ?_, Or.inl ?_⟩
      · intro h
        exact absurd h hnotfin
      · intro h
        exact absurd (hef h) hnotfin
      · exact List.Nodup.append hnd (List.nodup_singleton i) (by simpa using hies)
      · intro j hj
        rcases List.mem_append.mp hj with hj | hj
        · exact hmem' j hj
        · rcases List.mem_singleton.mp hj with rfl
          exact ⟨Finset.mem_insert_self _ _, hav⟩
      · simpa using Nat.succ_le_succ hlen
      · intro _
        simp [hfnd hopen]
      · simp [hout1]
    · -- available but the controller is closed: only the counter moves
      have hct : s.closed = true := by
        cases h : s.closed
        · exact absurd h hopen
        · rfl
      have hseq : completeAt cfg s i =
          { s with settled := insert i s.settled,
                   foundCount := s.foundCount + 1 } := by
        simp [completeAt, hemit, hct]
      rw [hseq]
      refine ⟨hci, htl, htn, hsl', hcl, Nat.succ_le_of_lt hflt, hrt, hfo, hef, heo,
        es, hnd, hmem', Nat.le_succ_of_le hlen, ?_, ?_⟩
      · intro h
        rw [hct] at h
        exact absurd h (by simp)
      · rcases hout with h | h | h
        · exact Or.inl h
        · exact Or.inr (Or.inl h)
        · exact Or.inr (Or.inr h)
  · -- unavailable, or the cap already reached: only `settled` changes
    have hseq : completeAt cfg s i = { s with settled := insert i s.settled } := by
      simp only [completeAt]
      rw [if_neg hemit, if_neg (by simp [hemit])]
    rw [hseq]
    refine ⟨hci, htl, htn, hsl', hcl, hfl, hrt, hfo, hef, heo,
      es, hnd, hmem', hlen, hfnd, ?_⟩
    rcases hout with h | h | h
    · exact Or.inl h
    · exact Or.inr (Or.inl h)
    · exact Or.inr (Or.inr h)

theorem inv_race {cfg : ScanConfig} {s : ScanState}
    (hinv : Inv cfg s) (hph : s.phase = Phase.atRace)
    (hex : ∃ i ∈ s.tasks, i ∈ s.settled) : Inv cfg (afterRace cfg s) := by
  obtain ⟨hci, htl, htn, hsl, hcl, hfl, hrt, hfo, hef, heo, es, hnd, hmem, hlen, hfnd, hout⟩ :=
    hinv
  have hclf : s.closed = false := by
    cases h : s.closed
    · rfl
    · rw [hcl.mp h] at hph
      exact absurd hph (by simp)
  have hne : cfg.names ≠ [] := fun h => by
    rw [hef h] at hph
    exact absurd hph (by simp)
  have htne : s.tasks ≠ [] := by
    rcases hex with ⟨i, hi, _⟩
    exact List.ne_nil_of_mem hi
  have htpos : 0 < s.tasks.length := List.length_pos.mpr htne
  have hout1 : s.output = es.map (lineOf cfg) := by
    rcases hout with h | ⟨h2, _, _⟩ | ⟨_, h2, _⟩
    · exact h
    · exact absurd h2 hne
    · rw [h2] at hph
      exact absurd hph (by simp)
  have htaillen : s.tasks.tail.length = s.tasks.length - 1 := List.length_tail s.tasks
  by_cases hguard : s.currentIndex < cfg.names.length ∧ s.foundCount < cfg.maxResults
  · obtain ⟨hg1, hg2⟩ := hguard
    have hguard : s.currentIndex < cfg.names.length ∧ s.foundCount < cfg.maxResults :=
      ⟨hg1, hg2⟩
    have hseq : afterRace cfg s =
        { s with
          tasks := s.tasks.tail ++
            (List.range (min (cfg.concurrencyLimit - s.tasks.tail.length)
              (cfg.names.length - s.currentIndex))).map (· + s.currentIndex),
          currentIndex := s.currentIndex + min (cfg.concurrencyLimit - s.tasks.tail.length)
              (cfg.names.length - s.currentIndex),
          phase := Phase.atRace } := by
      unfold afterRace
      rw [if_pos hguard]
    rw [hseq]
    have hk1 := Nat.min_le_left (cfg.concurrencyLimit - s.tasks.tail.length)
      (cfg.names.length - s.currentIndex)
    have hk2 := Nat.min_le_right (cfg.concurrencyLimit - s.tasks.tail.length)
      (cfg.names.length - s.currentIndex)
    refine ⟨?_, ?_, ?_, ?_, ?_, hfl, ?_, ?_, fun h => absurd h hne,
      fun h => absurd h hne, es, hnd, hmem, hlen, fun _ => hfnd hclf, Or.inl hout1⟩ <;>
      dsimp only
    · omega
    · intro j hj
      rcases List.mem_append.mp hj with hj | hj
      · have : j < s.currentIndex := htl j (List.mem_of_mem_tail hj)
        omega
      · rcases List.mem_map.mp hj with ⟨a, ha, rfl⟩
        have := List.mem_range.mp ha
        omega
    · simp only [List.length_append, List.length_map, List.length_range]
      omega
    · intro j hj
      have := hsl j hj
      omega
    · simpa using hclf
    · intro hlim _
      have hkpos : 0 < min (cfg.concurrencyLimit - s.tasks.tail.length)
          (cfg.names.length - s.currentIndex) := by
        apply lt_min <;> omega
      simp only [ne_eq, List.append_eq_nil, List.map_eq_nil_iff, List.range_eq_nil]
      omega
    · intro h
      exact absurd h (by simp)
  · have hseq : afterRace cfg s = { s with tasks := s.tasks.tail, phase := Phase.atAll } := by
      unfold afterRace
      rw [if_neg hguard]
    rw [hseq]
    refine ⟨hci, ?_, ?_, hsl, ?_, hfl, ?_, ?_, fun h => absurd h hne,
      fun h => absurd h hne, es, hnd, hmem, hlen, fun _ => hfnd hclf, Or.inl hout1⟩ <;>
      dsimp only
    · exact fun j hj => htl j (List.mem_of_mem_tail hj)
    · omega
    · simpa using hclf
    · intro _ h
      exact absurd h (by simp)
    · intro h
      exact absurd h (by simp)

theorem inv_allDone {cfg : ScanConfig} {s : ScanState}
    (hinv : Inv cfg s) (hph : s.phase = Phase.atAll) :
    Inv cfg (afterAll cfg s) := by
  obtain ⟨hci, htl, htn, hsl, hcl, hfl, hrt, hfo, hef, heo, es, hnd, hmem, hlen, hfnd, hout⟩ :=
    hinv
  have hclf : s.closed = false := by
    cases h : s.closed
    · rfl
    · rw [hcl.mp h] at hph
      exact absurd hph (by simp)
  have hne : cfg.names ≠ [] := fun h => by
    rw [hef h] at hph
    exact absurd hph (by simp)
  have hout1 : s.output = es.map (lineOf cfg) := by
    rcases hout with h | ⟨h2, _, _⟩ | ⟨_, h2, _⟩
    · exact h
    · exact absurd h2 hne
    · rw [h2] at hph
      exact absurd hph (by simp)
  have hfeq : s.foundCount = es.length := hfnd hclf
  by_cases hf0 : s.foundCount = 0
  · have hes : es = [] := List.length_eq_zero.mp (by omega)
    have hseq : afterAll cfg s =
        { s with output := s.output ++ [sentinelNoResult],
                 closed := true, phase := Phase.finished } := by
      unfold afterAll
      rw [if_pos hf0]
    rw [hseq]
    refine ⟨hci, htl, htn, hsl, by simp, hfl, ?_, ?_, fun h => absurd h hne,
      fun h => absurd h hne, [], List.nodup_nil, by simp, Nat.zero_le _,
      by simp, Or.inr (Or.inr ⟨rfl, rfl, ?_⟩)⟩
    · intro _ h
      exact absurd h (by simp)
    · intro _
      simp
    · simp [hout1, hes]
  · have hseq : afterAll cfg s =
        { s with closed := true, phase := Phase.finished } := by
      unfold afterAll
      rw [if_neg hf0]
    rw [hseq]
    have hesne : es ≠ [] := fun h => hf0 (by simp [hfeq, h])
    refine ⟨hci, htl, htn, hsl, by simp, hfl, ?_, ?_, fun h => absurd h hne,
      fun h => absurd h hne, es, hnd, hmem, hlen, by simp, Or.inl hout1⟩
    · intro _ h
      exact absurd h (by simp)
    · intro _
      simp only [hout1, ne_eq, List.map_eq_nil_iff]
      exact hesne

theorem inv_step {cfg : ScanConfig} {s s' : ScanState}
    (hinv : Inv cfg s) (hstep : Step cfg s s') : Inv cfg s' := by
  cases hstep with
  | complete i hi hns => exact inv_complete i hinv hi hns
  | race hph hex => exact inv_race hinv hph hex
  | allDone hph hall => exact inv_allDone hinv hph

theorem inv_reachable {cfg : ScanConfig} {s : ScanState}
    (h : Reachable cfg s) : Inv cfg s := by
  induction h with
  | refl => exact inv_init cfg
  | tail _ hstep ih => exact inv_step ih hstep

/-! ### General consequences of the invariant -/

theorem output_stable_of_closed {cfg : ScanConfig} {s t : ScanState}
    (hcl : s.closed = true) (hph : s.phase = Phase.finished)
    (hstep : Step cfg s t) : t.output = s.output ∧ t.closed = true := by
  cases hstep with
  | complete i hi hns =>
    constructor
    · simp [completeAt, hcl]
    · simpa [completeAt] using hcl
  | race hph2 hex =>
    rw [hph] at hph2
    exact absurd hph2 (by simp)
  | allDone hph2 hall =>
    rw [hph] at hph2
    exact absurd hph2 (by simp)

theorem scan_progress {cfg : ScanConfig} {s : ScanState}
    (hlim : 0 < cfg.concurrencyLimit) (hs : Reachable cfg s)
    (hph : s.phase ≠ Phase.finished) : ∃ t, Step cfg s t := by
  have inv := inv_reachable hs
  cases hph2 : s.phase with
  | finished => exact absurd hph2 hph
  | atRace =>
    have htne := inv.race_tasks hlim hph2
    by_cases hex : ∃ i ∈ s.tasks, i ∈ s.settled
    · exact ⟨_, Step.race s hph2 hex⟩
    · push_neg at hex
      obtain ⟨x, hx⟩ := List.exists_mem_of_ne_nil s.tasks htne
      exact ⟨_, Step.complete s x (inv.tasks_lt x hx) (hex x hx)⟩
  | atAll =>
    by_cases hall : ∀ i ∈ s.tasks, i ∈ s.settled
    · exact ⟨_, Step.allDone s hph2 hall⟩
    · push_neg at hall
      obtain ⟨x, hx, hxs⟩ := hall
      exact ⟨_, Step.complete s x (inv.tasks_lt x hx) hxs⟩

/-! ### Claim C3 (corrected): fail-closed on non-2xx is false -/

/-- Claim C3 counterexample: the claim "`checkAvailability` returns `false`
whenever the response is non-2xx or malformed" is false on the code — a 404
response whose body parses to JSON without a `domains` field is non-2xx, yet
`isDomainAvailable` returns `true`, because the code never inspects
`res.status`. -/
theorem availability_not_fail_closed :
    non2xxOrMalformed (FetchOutcome.parsed 404 none) = true ∧
    isDomainAvailable (FetchOutcome.parsed 404 none) = true ∧
    ¬(∀ r : FetchOutcome, non2xxOrMalformed r = true → isDomainAvailable r = false) := by
  refine ⟨by decide, by decide, fun h => ?_⟩
  have := h (FetchOutcome.parsed 404 none) (by decide)
  exact absurd this (by decide)

/-- Claim C3 amended: `isDomainAvailable` returns `false` exactly when
`fetch` or `res.json()` throws, and on a parsed body it returns `true` iff
the body carries no non-empty `domains` array — the HTTP status is never
consulted, so a non-2xx response with a parseable body that lacks matches is
treated as available (fail-open), while exceptions remain fail-closed. -/
theorem isDomainAvailable_amended (r : FetchOutcome) :
    isDomainAvailable r = amendedAvailable r := by
  cases r with
  | fetchError => rfl
  | parseError st => rfl
  | parsed st d =>
    cases d with
    | none => rfl
    | some l => cases l <;> rfl

/-! ### Claim C6 (confirmed): the extractor filter -/

/-- Claim C6: a line is retained by the extractor if and only if, after the
decoration-stripping and trimming of `cleanLine`, it satisfies every
condition of the spec's §4.1 filter simultaneously — non-empty, length ≤ 30,
full match of `[a-zA-Z0-9.-]`, case-insensitive suffix `".com"`, and no
case-insensitive occurrence of `"here are"` or `"based on"` (the last
condition is subsumed by the character class, which admits no space). -/
theorem extractNames_eq_spec_filter (raw : String) :
    extractNames raw =
      (((splitLines raw.data).map cleanLine).map String.mk).filter specKeep := by
  unfold extractNames
  exact List.filter_congr fun s _ => keepLine_eq_specKeep s

/-! ### Claim C9 (confirmed): extraction is a deterministic pure function -/

/-- Claim C9: the extractor is a pure, deterministic function of the raw
text — it is embedded as a Lean function (the source pipeline uses only
side-effect-free string operations), so two runs on equal texts always
produce equal candidate sequences. -/
theorem extractNames_deterministic (raw raw' : String) (h : raw = raw') :
    extractNames raw = extractNames raw' := by
  rw [h]

/-- Witness for C9 at a concrete raw text. -/
theorem extractNames_deterministic_witness :
    extractNames "Here are ideas:\n1. alpha.com\n2. beta.com" =
      extractNames "Here are ideas:\n1. alpha.com\n2. beta.com" :=
  extractNames_deterministic _ _ rfl

/-- Claim C2: for every candidate list, availability oracle and
interleaving, every reachable scan state satisfies `StreamSafe` — the scan
never aborts, all writes happen strictly before the single close, and the
worst outcome is a single sentinel line. -/
theorem scan_stream_safe (cfg : ScanConfig) (s : ScanState)
    (hlim : 0 < cfg.concurrencyLimit) (hs : Reachable cfg s) :
    StreamSafe cfg s := by
  have inv := inv_reachable hs
  refine ⟨inv.closed_iff, ?_, ?_, scan_progress hlim hs⟩
  · intro t hstep hcl
    exact output_stable_of_closed hcl (inv.closed_iff.mp hcl) hstep
  · intro hfin
    refine ⟨inv.fin_out hfin, ?_⟩
    intro hf0
    obtain ⟨es, hnd, hmem, hlen, hfnd, hout⟩ := inv.out_char
    have hes : es = [] := by
      have := hlen
      rw [hf0] at this
      exact List.length_eq_zero.mp (Nat.le_zero.mp this)
    rcases hout with h | ⟨_, _, h3⟩ | ⟨_, _, h3⟩
    · rw [hes] at h
      exact absurd h (by simpa using inv.fin_out hfin)
    · exact Or.inl h3
    · exact Or.inr h3

/-- Witness for C2 at the concrete initial state of `cfgC2`. -/
theorem scan_stream_safe_witness : StreamSafe cfgC2 (initState cfgC2) :=
  scan_stream_safe cfgC2 (initState cfgC2) (by decide) Relation.ReflTransGen.refl

theorem reachable_stC4one : Reachable cfgC4one stC4one :=
  Relation.ReflTransGen.tail
    (Relation.ReflTransGen.tail
      (Relation.ReflTransGen.tail Relation.ReflTransGen.refl
        (Step.complete (initState cfgC4one) 0 (by decide) (by decide)))
      (Step.race _ (by decide) (by decide)))
    (Step.allDone _ (by decide) (by decide))

/-- Claim C4 counterexample: there is no single fixed sentinel message — the
run with zero candidates ends with
`"⚠️ No available domains found this time.\n"` (route.ts line 79) while a
full scan that confirms nothing ends with
`"⚠️ No available domains found this time. Please try again.\n"` (line 126),
and the two strings differ. -/
theorem no_single_sentinel :
    ¬ ∃ m : String, ∀ (cfg : ScanConfig) (s : ScanState),
        (∀ i, cfg.avail i = false) → Reachable cfg s → s.phase = Phase.finished →
        s.output = [m] := by
  rintro ⟨m, hm⟩
  have h1 := hm cfgC4empty (initState cfgC4empty) (fun _ => rfl)
    Relation.ReflTransGen.refl (by decide)
  have h2 := hm cfgC4one stC4one (fun _ => rfl) reachable_stC4one (by decide)
  have e1 : sentinelEmpty = m := by
    have : [sentinelEmpty] = [m] := by
      rw [← h1]
      decide
    simpa using this
  have e2 : sentinelNoResult = m := by
    have : [sentinelNoResult] = [m] := by
      rw [← h2]
      decide
    simpa using this
  exact absurd (e1.trans e2.symm) (by decide)

/-- Claim C4 amended: in every run whose lookups report every candidate
unavailable (including the zero-candidate run), the finished scan has
written exactly one line — the empty-list sentinel of route.ts line 79 when
the candidate list is empty, and the no-result sentinel of line 126
otherwise — and nothing else; both sentinels end in a newline. -/
theorem no_result_single_sentinel (cfg : ScanConfig) (s : ScanState)
    (hav : ∀ i, cfg.avail i = false) (hs : Reachable cfg s)
    (hfin : s.phase = Phase.finished) :
    s.output = [if cfg.names = [] then sentinelEmpty else sentinelNoResult] ∧
    endsWithSeq ['\n'] sentinelEmpty.data = true ∧ endsWithSeq ['\n'] sentinelNoResult.data = true := by
  have inv := inv_reachable hs
  refine ⟨?_, by decide, by decide⟩
  obtain ⟨es, hnd, hmem, hlen, hfnd, hout⟩ := inv.out_char
  have hes : es = [] := by
    cases hesq : es with
    | nil => rfl
    | cons a as =>
      have := (hmem a (by rw [hesq]; exact List.mem_cons_self _ _)).2
      rw [hav a] at this
      exact absurd this (by simp)
  rcases hout with h | ⟨h2, _, h3⟩ | ⟨_, _, h3⟩
  · rw [hes] at h
    exact absurd h (by simpa using inv.fin_out hfin)
  · rw [if_pos h2]
    exact h3
  · have hn : cfg.names ≠ [] := by
      intro hn
      have := inv.empty_out hn
      rw [h3] at this
      have : sentinelNoResult = sentinelEmpty := by simpa using this
      exact absurd this (by decide)
    rw [if_neg hn]
    exact h3

/-- Witness for the amended C4, at the finished one-candidate run. -/
theorem no_result_single_sentinel_witness :
    stC4one.output = [if cfgC4one.names = [] then sentinelEmpty else sentinelNoResult] ∧
    endsWithSeq ['\n'] sentinelEmpty.data = true ∧ endsWithSeq ['\n'] sentinelNoResult.data = true :=
  no_result_single_sentinel cfgC4one stC4one (fun _ => rfl) reachable_stC4one (by decide)

/-! ### Claim C7 (confirmed): a transport error is isolated -/

/-- Claim C7: when the lookup of candidate `j` raises a transport error,
(1) `isDomainAvailable` maps it to unavailable; (2) the whole scan behaves
*identically* to a scan in which that lookup instead returned a well-formed
"taken" response — the configurations are equal, so every candidate the
scan would otherwise evaluate is still evaluated and the scan never aborts;
and (3) the erroring candidate's line is never written to the stream (the
two sentinel exclusions rule out a candidate string that happens to equal a
sentinel line). -/
theorem lookup_error_isolated (names : List String) (outcomes : Nat → FetchOutcome)
    (j maxR lim : Nat) (s : ScanState)
    (houtj : outcomes j = FetchOutcome.fetchError)
    (hnd : names.Nodup) (hjl : j < names.length)
    (hs1 : names.getD j "" ++ "\n" ≠ sentinelEmpty)
    (hs2 : names.getD j "" ++ "\n" ≠ sentinelNoResult)
    (hs : Reachable (cfgOf names outcomes maxR lim) s) :
    isDomainAvailable (outcomes j) = false ∧
    cfgOf names outcomes maxR lim =
      cfgOf names (Function.update outcomes j (FetchOutcome.parsed 200 (some ["taken"]))) maxR lim ∧
    names.getD j "" ++ "\n" ∉ s.output := by
  have havj : isDomainAvailable (outcomes j) = false := by
    rw [houtj]
    rfl
  refine ⟨havj, ?_, ?_⟩
  · unfold cfgOf
    have : (fun i => isDomainAvailable (outcomes i)) =
        (fun i => isDomainAvailable
          (Function.update outcomes j (FetchOutcome.parsed 200 (some ["taken"])) i)) := by
      funext i
      by_cases hij : i = j
      · subst hij
        rw [houtj, Function.update_same]
        rfl
      · rw [Function.update_noteq hij]
    rw [this]
  · intro hmem
    have inv := inv_reachable hs
    obtain ⟨es, hnd2, hmem2, hlen, hfnd, hout⟩ := inv.out_char
    rcases hout with h | ⟨_, _, h3⟩ | ⟨_, _, h3⟩
    · rw [h] at hmem
      rcases List.mem_map.mp hmem with ⟨i, hi, hline⟩
      have hisl : i ∈ s.settled := (hmem2 i hi).1
      have hiav : isDomainAvailable (outcomes i) = true := (hmem2 i hi).2
      have hilt : i < s.currentIndex := inv.settled_lt i hisl
      have hile : i < names.length := lt_of_lt_of_le hilt inv.ci_le
      have hline' : names.getD i "" ++ "\n" = names.getD j "" ++ "\n" := hline
      have hgd : names.getD i "" = names.getD j "" := by
        have hd := congrArg String.data hline'
        rw [data_append, data_append] at hd
        exact String.ext (List.append_cancel_right hd)
      have hij : i = j := by
        have hge1 : names.getD i "" = names[i] := List.getD_eq_getElem names "" hile
        have hge2 : names.getD j "" = names[j] := List.getD_eq_getElem names "" hjl
        rw [hge1, hge2] at hgd
        exact (List.Nodup.getElem_inj_iff hnd).mp hgd
      rw [hij, houtj] at hiav
      exact absurd hiav (by decide)
    · exact hs1 (List.eq_of_mem_singleton (h3 ▸ hmem))
    · exact hs2 (List.eq_of_mem_singleton (h3 ▸ hmem))

theorem reachable_stC7 : Reachable cfgC7 stC7 :=
  Relation.ReflTransGen.tail
    (Relation.ReflTransGen.tail
      (Relation.ReflTransGen.tail Relation.ReflTransGen.refl
        (Step.complete (initState cfgC7) 1 (by decide) (by decide)))
      (Step.race _ (by decide) (by decide)))
    (Step.allDone _ (by decide) (by decide))

/-- Witness for C7 at the concrete run `stC7`. -/
theorem lookup_error_isolated_witness :
    isDomainAvailable (outcomesC7 0) = false ∧
    cfgOf namesC7 outcomesC7 10 5 =
      cfgOf namesC7 (Function.update outcomesC7 0 (FetchOutcome.parsed 200 (some ["taken"]))) 10 5 ∧
    namesC7.getD 0 "" ++ "\n" ∉ stC7.output :=
  lookup_error_isolated namesC7 outcomesC7 0 10 5 stC7 (by decide) (by decide)
    (by decide) (by decide) (by decide) reachable_stC7

theorem mem_extract_facts {raw name : String} (h : name ∈ extractNames raw) :
    endsWithDotCom name.data = true ∧ name.data.length ≤ 30 ∧
    name.data.all isValidChar = true ∧ '\n' ∉ name.data := by
  have hk : keepLine name = true := (List.mem_filter.mp h).2
  unfold keepLine at hk
  simp only [Bool.and_eq_true, Bool.not_eq_true', decide_eq_true_eq] at hk
  obtain ⟨⟨⟨hne, hd⟩, hv⟩, hl⟩ := hk
  refine ⟨hd, hl, hv, ?_⟩
  intro hmem
  have := List.all_eq_true.mp hv _ hmem
  exact absurd this (by decide)

/-- Claim C10: in every reachable state of a scan over the candidates
extracted from `raw`, every enqueued chunk is either a sentinel or one
extracted candidate followed by a single newline, and splitting the
concatenated stream on newlines recovers exactly the emitted lines. -/
theorem scan_output_lines (raw : String) (outcomes : Nat → FetchOutcome)
    (maxR lim : Nat) (s : ScanState)
    (hs : Reachable (cfgOf (extractNames raw) outcomes maxR lim) s) :
    StreamOutputOk raw s := by
  have inv := inv_reachable hs
  obtain ⟨es, hnd, hmem, hlen, hfnd, hout⟩ := inv.out_char
  have hline : ∀ line ∈ s.output, OutputLineOk raw line := by
    intro line hl
    rcases hout with h | ⟨_, _, h3⟩ | ⟨_, _, h3⟩
    · rw [h] at hl
      rcases List.mem_map.mp hl with ⟨i, hi, hlEq⟩
      have hisl := (hmem i hi).1
      have hile : i < (extractNames raw).length :=
        lt_of_lt_of_le (inv.settled_lt i hisl) inv.ci_le
      have hnm : (extractNames raw).getD i "" ∈ extractNames raw := by
        rw [List.getD_eq_getElem _ _ hile]
        exact List.getElem_mem _
      obtain ⟨hd, hl30, hv, hnl⟩ := mem_extract_facts hnm
      exact Or.inr (Or.inr ⟨(extractNames raw).getD i "", hnm, hlEq.symm, hd, hl30, hv, hnl⟩)
    · rw [h3] at hl
      exact Or.inl (List.eq_of_mem_singleton hl)
    · rw [h3] at hl
      exact Or.inr (Or.inl (List.eq_of_mem_singleton hl))
  refine ⟨hline, ?_⟩
  apply splitLines_joinOut
  intro t ht
  rcases hline t ht with h | h | ⟨name, _, hEq, _, _, _, hnl⟩
  · refine ⟨sentinelEmpty.data.dropLast, ?_, by decide⟩
    rw [h]
    decide
  · refine ⟨sentinelNoResult.data.dropLast, ?_, by decide⟩
    rw [h]
    decide
  · refine ⟨name.data, ?_, hnl⟩
    rw [hEq, data_append]

theorem reachable_stC10 : Reachable cfgC10 stC10 :=
  Relation.ReflTransGen.tail
    (Relation.ReflTransGen.tail
      (Relation.ReflTransGen.tail Relation.ReflTransGen.refl
        (Step.complete (initState cfgC10) 1 (by decide) (by decide)))
      (Step.race _ (by decide) (by decide)))
    (Step.allDone _ (by decide) (by decide))

/-- Witness for C10 at the concrete run `stC10`. -/
theorem scan_output_lines_witness : StreamOutputOk rawC10 stC10 :=
  scan_output_lines rawC10 outcomesC10 10 5 stC10 reachable_stC10

/-- Claim C1 is violated by the code: `stC1` is reachable with
`concurrencyLimit = 5`, yet 7 lookups have been started and only 1 has
completed, so 6 are outstanding. -/
theorem concurrency_limit_exceeded :
    Reachable cfgC1 stC1 ∧ cfgC1.concurrencyLimit = 5 ∧
    stC1.currentIndex = 7 ∧ stC1.settled.card = 1 ∧
    cfgC1.concurrencyLimit < stC1.currentIndex - stC1.settled.card := by
  refine ⟨?_, by decide, by decide, by decide, by decide⟩
  exact Relation.ReflTransGen.tail
    (Relation.ReflTransGen.tail
      (Relation.ReflTransGen.tail Relation.ReflTransGen.refl
        (Step.complete (initState cfgC1) 4 (by decide) (by decide)))
      (Step.race _ (by decide) (by decide)))
    (Step.race _ (by decide) (by decide))

/-- Claim C5 is violated by the code: a finished, closed scan over 2
candidates that are all available, with `maxResults = 2`, whose stream
carries exactly one line — and no further transition ever changes the
output. -/
theorem scan_loses_confirmed_result :
    Reachable cfgC5 stC5 ∧ (∀ i, cfgC5.avail i = true) ∧
    cfgC5.maxResults = 2 ∧ cfgC5.names.length = 2 ∧
    stC5.phase = Phase.finished ∧ stC5.closed = true ∧
    stC5.output = ["bbbb.com\n"] ∧ stC5.output.length = 1 ∧
    (∀ t, Step cfgC5 stC5 t → t.output = stC5.output) := by
  refine ⟨?_, fun _ => rfl, by decide, by decide, by decide, by decide, by decide,
    by decide, ?_⟩
  · exact Relation.ReflTransGen.tail
      (Relation.ReflTransGen.tail
        (Relation.ReflTransGen.tail Relation.ReflTransGen.refl
          (Step.complete (initState cfgC5) 1 (by decide) (by decide)))
        (Step.race _ (by decide) (by decide)))
      (Step.allDone _ (by decide) (by decide))
  · intro t hstep
    exact (output_stable_of_closed (by decide) (by decide) hstep).1

/-- Claim C8 is violated by the code: in a finished, closed run of the
spec's concrete scenario, the stream carries only `"delta.com\n"` —
`"beta.com\n"` was never written although `beta.com` is available — and no
further transition ever changes the output. -/
theorem scan_misses_beta :
    Reachable cfgC8 stC8 ∧
    cfgC8.avail 1 = true ∧ cfgC8.names.getD 1 "" = "beta.com" ∧
    stC8.phase = Phase.finished ∧ stC8.closed = true ∧
    stC8.output = ["delta.com\n"] ∧ "beta.com" ++ "\n" ∉ stC8.output ∧
    (∀ t, Step cfgC8 stC8 t → t.output = stC8.output) := by
  refine ⟨?_, by decide, by decide, by decide, by decide, by decide, by decide, ?_⟩
  · exact Relation.ReflTransGen.tail
      (Relation.ReflTransGen.tail
        (Relation.ReflTransGen.tail
          (Relation.ReflTransGen.tail
            (Relation.ReflTransGen.tail
              (Relation.ReflTransGen.tail
                (Relation.ReflTransGen.tail Relation.ReflTransGen.refl
                  (Step.complete (initState cfgC8) 0 (by decide) (by decide)))
                (Step.race _ (by decide) (by decide)))
              (Step.complete _ 2 (by decide) (by decide)))
            (Step.race _ (by decide) (by decide)))
          (Step.race _ (by decide) (by decide)))
        (Step.complete _ 3 (by decide) (by decide)))
      (Step.allDone _ (by decide) (by decide))
  · intro t hstep
    exact (output_stable_of_closed (by decide) (by decide) hstep).1

end DomainFinder

